import Mathlib

/-!
# Calamares module system: instance keys and dependency checks

A shallow embedding of `src/libcalamaresui/modulesystem/ModuleManager.h`.

* `QString` is a sequence of characters; `QString::split` with a single
  separator character and the default `Qt::KeepEmptyParts` behaviour is
  embedded as the scanning loop `splitFrom`.
* `ModuleInstanceKey` is the `QPair< QString, QString >` subclass with its
  three constructors, its observers and `fromString`.
* The two `ModuleManager::checkDependencies` overloads are only declared in
  the header; they are modelled from the specification.
-/

set_option autoImplicit false

namespace Calamares

/-- A `QString`: a finite sequence of characters. -/
abbrev QString := List Char

/-- A `QStringList`. -/
abbrev QStringList := List QString

/-- The scanning loop of Qt's `QString::split( QChar sep )` with `Qt::KeepEmptyParts`:
`cur` is the part collected since the last separator. A separator closes the
current part (kept even when empty); the end of the string closes the last one. -/
def splitFrom (sep : Char) (cur : QString) : QString → QStringList
  | [] => [cur]
  | c :: cs => if c = sep then cur :: splitFrom sep [] cs else splitFrom sep (cur ++ [c]) cs

/-- Qt's `QString::split( sep )` with the default `Qt::KeepEmptyParts`: the parts
of `s` between occurrences of `sep`; a string without `sep` is its own single part. -/
def split (sep : Char) (s : QString) : QStringList := splitFrom sep [] s

/-- The class `ModuleInstanceKey : public QPair< QString, QString >`. -/
structure ModuleInstanceKey where
  first : QString
  second : QString
  deriving DecidableEq

namespace ModuleInstanceKey

/-- Constructor `ModuleInstanceKey( const QString& module, const QString& id )`:
an empty id is replaced by the module name. -/
def ofModuleAndId (module id : QString) : ModuleInstanceKey :=
  let k : ModuleInstanceKey := ⟨module, id⟩
  if k.second.isEmpty then { k with second := k.first } else k

/-- Constructor `explicit ModuleInstanceKey( const QString& module )`: the usual
key `module@module`. -/
def ofModule (module : QString) : ModuleInstanceKey := ⟨module, module⟩

/-- Constructor `ModuleInstanceKey()`: the invalid key, both parts empty. -/
def invalid : ModuleInstanceKey := ⟨[], []⟩

/-- Method `isValid()`: a valid key has both name and id. -/
def isValid (k : ModuleInstanceKey) : Bool := !k.first.isEmpty && !k.second.isEmpty

/-- Method `isCustom()`: a custom key has a non-default id. -/
def isCustom (k : ModuleInstanceKey) : Bool := k.first != k.second

/-- Method `module()`: the first part of the pair. -/
def module (k : ModuleInstanceKey) : QString := k.first

/-- Method `id()`: the second part of the pair. -/
def id (k : ModuleInstanceKey) : QString := k.second

/-- Conversion `explicit operator QString()`: `module() + '@' + id()`. -/
def toQString (k : ModuleInstanceKey) : QString := k.module ++ ['@'] ++ k.id

/-- Method `static ModuleInstanceKey fromString( const QString& s )`: fewer than
one or more than two parts give the invalid key; otherwise the key is built from
the first and the last part, which for a single part coincide. -/
def fromString (s : QString) : ModuleInstanceKey :=
  let moduleEntrySplit := split '@' s
  if h : moduleEntrySplit.length < 1 ∨ moduleEntrySplit.length > 2 then
    invalid
  else
    have hne : moduleEntrySplit ≠ [] := by
      intro h0
      exact h (Or.inl (by simp [h0]))
    ofModuleAndId (moduleEntrySplit.head hne) (moduleEntrySplit.getLast hne)

end ModuleInstanceKey

open ModuleInstanceKey

/-- The strings of the configured instance list: `"m"` or `"m@i"` with non-empty
`m` and `i`, neither containing `'@'`. -/
def WellFormed (s : QString) : Prop :=
  (s ≠ [] ∧ '@' ∉ s) ∨ ∃ m i, m ≠ [] ∧ i ≠ [] ∧ '@' ∉ m ∧ '@' ∉ i ∧ s = m ++ '@' :: i

/-- A `QMap< K, V >`, as the list of its entries in iteration order. -/
abbrev QMap (K V : Type) := List (K × V)

/-- Qt's `QMap::contains( key )`. -/
def QMap.contains {K V : Type} [DecidableEq K] (m : QMap K V) (key : K) : Bool :=
  m.any (fun e => decide (e.1 = key))

/-- Qt's `QMap::remove( key )`: the map without the entries under `key`. -/
def QMap.remove {K V : Type} [DecidableEq K] (m : QMap K V) (key : K) : QMap K V :=
  m.filter (fun e => decide (e.1 ≠ key))

/-- Modelled from the spec: the descriptor type (a `QVariantMap` parsed from the
module's metadata file) is not declared in the available sources. The spec
requires it to expose `name` and `requiredModules`; the remaining keys are
pass-through data. -/
structure ModuleDescriptor where
  name : QString
  requiredModules : QStringList
  deriving DecidableEq

/-- Modelled from the spec: the class `Module` is only forward-declared in the
header. The dependency checks read its name and its required module names. -/
structure Module where
  name : QString
  requiredModules : QStringList
  deriving DecidableEq

/-- The data members of `class ModuleManager`. -/
structure ModuleManager where
  m_availableDescriptorsByModuleName : QMap QString ModuleDescriptor
  m_moduleDirectoriesByModuleName : QMap QString QString
  m_loadedModulesByInstanceKey : QMap ModuleInstanceKey Module
  m_paths : QStringList
  deriving DecidableEq

namespace ModuleManager

/-- Modelled from the spec: the test of the global filter pass, whose body is not
in the available sources: some entry of the descriptor's `requiredModules` is not
a key of `snapshot`. -/
def hasMissingRequirement (snapshot : QMap QString ModuleDescriptor)
    (d : ModuleDescriptor) : Bool :=
  d.requiredModules.any (fun depName => !QMap.contains snapshot depName)

/-- Modelled from the spec: one step of the global filter pass, whose body is not
in the available sources: a descriptor with a missing requirement is removed from
the available map and its name is appended to the failed list. The name of an entry
is its key: the map is keyed by the descriptor's declared name. -/
def checkDependenciesStep (snapshot : QMap QString ModuleDescriptor)
    (acc : QStringList × ModuleManager) (entry : QString × ModuleDescriptor) :
    QStringList × ModuleManager :=
  if hasMissingRequirement snapshot entry.2 then
    (acc.1 ++ [entry.1],
      { acc.2 with
        m_availableDescriptorsByModuleName :=
          QMap.remove acc.2.m_availableDescriptorsByModuleName entry.1 })
  else acc

/-- Modelled from the spec: `QStringList ModuleManager::checkDependencies()` is
only declared in the header, its body is not in the available sources. The
spec's global filter pass: a single pass over the current snapshot of the
available descriptors, without re-checking cascading removals; every descriptor
with a requirement that is not a key of the snapshot is removed and its name
appended to the returned list. The result is the returned list and the manager
afterwards. -/
def checkDependencies (mgr : ModuleManager) : QStringList × ModuleManager :=
  let snapshot := mgr.m_availableDescriptorsByModuleName
  snapshot.foldl (checkDependenciesStep snapshot) ([], mgr)

/-- Modelled from the spec: `bool ModuleManager::checkDependencies( const Module& )`
is only declared in the header, its body is not in the available sources. The
spec's per-module ordering check: for every required module name, some instance
key already in the loaded-module map has that module name. -/
def checkDependenciesOf (mgr : ModuleManager) (m : Module) : Bool :=
  m.requiredModules.all (fun required =>
    mgr.m_loadedModulesByInstanceKey.any (fun e => decide (e.1.module = required)))

end ModuleManager

/-! ## The parts produced by `split` -/

theorem splitFrom_of_not_mem (sep : Char) (s cur : QString) (h : sep ∉ s) :
    splitFrom sep cur s = [cur ++ s] := by
  induction s generalizing cur with
  | nil => simp [splitFrom]
  | cons c cs ih =>
    have hc : c ≠ sep := fun e => h (by simp [e])
    have hcs : sep ∉ cs := fun e => h (List.mem_cons_of_mem _ e)
    simp [splitFrom, hc, ih _ hcs]

theorem splitFrom_append_sep (sep : Char) (a b cur : QString) (h : sep ∉ a) :
    splitFrom sep cur (a ++ sep :: b) = (cur ++ a) :: splitFrom sep [] b := by
  induction a generalizing cur with
  | nil => simp [splitFrom]
  | cons c cs ih =>
    have hc : c ≠ sep := fun e => h (by simp [e])
    have hcs : sep ∉ cs := fun e => h (List.mem_cons_of_mem _ e)
    simp [splitFrom, hc, ih _ hcs]

theorem length_splitFrom (sep : Char) (s cur : QString) :
    (splitFrom sep cur s).length = s.count sep + 1 := by
  induction s generalizing cur with
  | nil => simp [splitFrom]
  | cons c cs ih =>
    by_cases hc : c = sep
    · subst hc
      simp [splitFrom, ih]
    · simp [splitFrom, hc, ih, List.count_cons]

theorem length_split (sep : Char) (s : QString) : (split sep s).length = s.count sep + 1 :=
  length_splitFrom sep s []

theorem split_of_not_mem (sep : Char) (s : QString) (h : sep ∉ s) : split sep s = [s] := by
  simp [split, splitFrom_of_not_mem sep s [] h]

theorem split_append_sep (sep : Char) (a b : QString) (ha : sep ∉ a) (hb : sep ∉ b) :
    split sep (a ++ sep :: b) = [a, b] := by
  simp [split, splitFrom_append_sep sep a b [] ha, splitFrom_of_not_mem sep b [] hb]

/-- A string with exactly one separator is `a ++ sep :: b` with `a`, `b` free of it. -/
theorem exists_append_sep_of_count_eq_one (sep : Char) (s : QString) (h : s.count sep = 1) :
    ∃ a b, s = a ++ sep :: b ∧ sep ∉ a ∧ sep ∉ b := by
  induction s with
  | nil => simp at h
  | cons c cs ih =>
    by_cases hc : c = sep
    · subst hc
      refine ⟨[], cs, rfl, by simp, ?_⟩
      simp at h
      exact List.count_eq_zero.mp h
    · have h1 : cs.count sep = 1 := by simpa [List.count_cons, hc] using h
      obtain ⟨a, b, hs, ha, hb⟩ := ih h1
      refine ⟨c :: a, b, by simp [hs], ?_, hb⟩
      simp [ha, Ne.symm hc]

/-! ## `fromString` by number of parts -/

theorem fromString_of_split_one (s p : QString) (h : split '@' s = [p]) :
    fromString s = ofModuleAndId p p := by
  unfold fromString
  simp [h]

theorem fromString_of_split_two (s p0 p1 : QString) (h : split '@' s = [p0, p1]) :
    fromString s = ofModuleAndId p0 p1 := by
  unfold fromString
  simp [h]

theorem fromString_of_two_le_count (s : QString) (h : 2 ≤ s.count '@') :
    fromString s = invalid := by
  have hl := length_split '@' s
  unfold fromString
  simp only
  rw [dif_pos]
  right
  omega

theorem fromString_of_not_mem (s : QString) (h : '@' ∉ s) : fromString s = ofModuleAndId s s :=
  fromString_of_split_one s s (split_of_not_mem '@' s h)

theorem fromString_append_at (a b : QString) (ha : '@' ∉ a) (hb : '@' ∉ b) :
    fromString (a ++ '@' :: b) = ofModuleAndId a b :=
  fromString_of_split_two _ a b (split_append_sep '@' a b ha hb)

theorem ofModuleAndId_of_ne_nil (m i : QString) (h : i ≠ []) : ofModuleAndId m i = ⟨m, i⟩ := by
  cases i with
  | nil => exact absurd rfl h
  | cons c cs => rfl

theorem ofModuleAndId_nil (m : QString) : ofModuleAndId m [] = ⟨m, m⟩ := rfl

theorem ofModuleAndId_self (m : QString) : ofModuleAndId m m = ⟨m, m⟩ := by
  cases m <;> rfl


theorem isValid_mk (m i : QString) :
    isValid ⟨m, i⟩ = true ↔ m ≠ [] ∧ i ≠ [] := by
  cases m <;> cases i <;> simp [isValid]

theorem not_mem_of_count_append_sep (sep : Char) (s m i : QString)
    (hs : s = m ++ [sep] ++ i) (h1 : s.count sep = 1) : sep ∉ m ∧ sep ∉ i := by
  subst hs
  simp [List.count_append] at h1
  constructor
  · exact List.count_eq_zero.mp (by omega)
  · exact List.count_eq_zero.mp (by omega)

theorem takeWhile_ne_of_not_mem (sep : Char) (s : QString) (h : sep ∉ s) :
    s.takeWhile (fun c => c != sep) = s := by
  induction s with
  | nil => rfl
  | cons c cs ih =>
    have hc : c ≠ sep := fun e => h (by simp [e])
    have hcs : sep ∉ cs := fun e => h (List.mem_cons_of_mem _ e)
    have hb : (c != sep) = true := by simpa using hc
    rw [List.takeWhile_cons, hb]
    simp [ih hcs]

theorem takeWhile_ne_append_sep (sep : Char) (a b : QString) (h : sep ∉ a) :
    (a ++ sep :: b).takeWhile (fun c => c != sep) = a := by
  induction a with
  | nil => simp [List.takeWhile_cons]
  | cons c cs ih =>
    have hc : c ≠ sep := fun e => h (by simp [e])
    have hcs : sep ∉ cs := fun e => h (List.mem_cons_of_mem _ e)
    have hb : (c != sep) = true := by simpa using hc
    rw [List.cons_append, List.takeWhile_cons, hb]
    simp [ih hcs]

/-- The three shapes of a string with respect to `'@'`. -/
theorem at_cases (s : QString) :
    '@' ∉ s ∨ (∃ a b, s = a ++ '@' :: b ∧ '@' ∉ a ∧ '@' ∉ b) ∨ 2 ≤ s.count '@' := by
  rcases Nat.lt_or_ge (s.count '@') 2 with h | h
  · rcases Nat.eq_zero_or_pos (s.count '@') with h0 | hpos
    · exact Or.inl (List.count_eq_zero.mp h0)
    · exact Or.inr (Or.inl (exists_append_sep_of_count_eq_one '@' s (by omega)))
  · exact Or.inr (Or.inr h)

theorem count_append_sep (sep : Char) (a b : QString) (ha : sep ∉ a) (hb : sep ∉ b) :
    (a ++ sep :: b).count sep = 1 := by
  simp [List.count_append, List.count_eq_zero.mpr ha, List.count_eq_zero.mpr hb]

/-- Well-formed strings are those that split into one or two parts, all non-empty. -/
theorem wellFormed_iff_parts (s : QString) :
    WellFormed s ↔ (split '@' s).length ≤ 2 ∧ ∀ p ∈ split '@' s, p ≠ [] := by
  constructor
  · rintro (⟨hne, hat⟩ | ⟨m, i, hm, hi, hma, hia, rfl⟩)
    · simp [split_of_not_mem '@' s hat, hne]
    · simp [split_append_sep '@' m i hma hia, hm, hi]
  · rintro ⟨hlen, hall⟩
    rcases at_cases s with h0 | ⟨a, b, rfl, ha, hb⟩ | h2
    · left
      rw [split_of_not_mem '@' s h0] at hall
      exact ⟨hall s (by simp), h0⟩
    · right
      rw [split_append_sep '@' a b ha hb] at hall
      exact ⟨a, b, hall a (by simp), hall b (by simp), ha, hb, rfl⟩
    · rw [length_split] at hlen
      omega

/-! ## Instance keys: construction and string form -/

/-- C1: for every string `s = m + "@" + i` with non-empty `m` and `i` and exactly
one `'@'` in `s`, converting `fromString(s)` back to a string yields `s`. -/
theorem fromString_toQString_roundtrip (s m i : QString) (hs : s = m ++ ['@'] ++ i)
    (_hm : m ≠ []) (hi : i ≠ []) (h1 : s.count '@' = 1) :
    toQString (fromString s) = s := by
  obtain ⟨hma, hia⟩ := not_mem_of_count_append_sep '@' s m i hs h1
  have hs2 : s = m ++ '@' :: i := by simp [hs]
  rw [hs2, fromString_append_at m i hma hia, ofModuleAndId_of_ne_nil m i hi]
  simp [toQString, module, ModuleInstanceKey.id]

theorem fromString_toQString_roundtrip_witness :
    toQString (fromString "users@one".toList) = "users@one".toList :=
  fromString_toQString_roundtrip "users@one".toList "users".toList "one".toList
    (by decide) (by decide) (by decide) (by decide)

/-- C5: for every module name `m`, `ModuleInstanceKey(m)` and
`ModuleInstanceKey(m, "")` are the same key, with `module() == m`, `id() == m`,
`isCustom() == false` and string form `m + "@" + m`; the key of `"users"` prints
as `"users@users"`. -/
theorem ofModule_default_instance :
    (∀ m : QString,
      ofModule m = ofModuleAndId m [] ∧ (ofModule m).module = m ∧ (ofModule m).id = m ∧
        (ofModule m).isCustom = false ∧ toQString (ofModule m) = m ++ ['@'] ++ m) ∧
    toQString (ofModule "users".toList) = "users@users".toList := by
  refine ⟨fun m => ⟨rfl, rfl, rfl, ?_, rfl⟩, by decide⟩
  simp [ofModule, isCustom]

/-- C6: for every module name `m` and every non-empty id `i` different from `m`,
the string form of `ModuleInstanceKey(m, i)` is `m + "@" + i` and `isCustom()` is
true. -/
theorem ofModuleAndId_custom_instance (m i : QString) (hi : i ≠ []) (hne : i ≠ m) :
    toQString (ofModuleAndId m i) = m ++ ['@'] ++ i ∧ (ofModuleAndId m i).isCustom = true := by
  rw [ofModuleAndId_of_ne_nil m i hi]
  refine ⟨rfl, ?_⟩
  simp [isCustom, Ne.symm hne]

theorem ofModuleAndId_custom_instance_witness :
    toQString (ofModuleAndId "users".toList "one".toList) = "users@one".toList ∧
      (ofModuleAndId "users".toList "one".toList).isCustom = true :=
  ofModuleAndId_custom_instance "users".toList "one".toList (by decide) (by decide)

/-! ## Instance keys: parsing -/

/-- C4: for every string with two or more `'@'` characters, `fromString` gives the
default-constructed key (both parts empty), and that key is not valid. -/
theorem fromString_invalid_of_two_at (s : QString) (h : 2 ≤ s.count '@') :
    fromString s = invalid ∧ (fromString s).module = [] ∧ (fromString s).id = [] ∧
      (fromString s).isValid = false := by
  rw [fromString_of_two_le_count s h]
  exact ⟨rfl, rfl, rfl, rfl⟩

theorem fromString_invalid_of_two_at_witness :
    fromString "a@b@c".toList = invalid ∧ (fromString "a@b@c".toList).module = [] ∧
      (fromString "a@b@c".toList).id = [] ∧ (fromString "a@b@c".toList).isValid = false :=
  fromString_invalid_of_two_at "a@b@c".toList (by decide)

/-- C2 (as stated, refuted): `"users@"` splits into the two parts `"users"` and
`""`, yet the parsed key is not (module = `"users"`, id = `""`): its id is
`"users"`. -/
theorem fromString_two_parts_counterexample :
    split '@' "users@".toList = ["users".toList, []] ∧
      fromString "users@".toList ≠ ⟨"users".toList, []⟩ ∧
      (fromString "users@".toList).id = "users".toList := by
  decide

/-- C2 (amended): splitting `s` on `'@'`, exactly one part `p` gives the key
(module = `p`, id = `p`); exactly two parts `p0`, `p1` give the key with
module = `p0` and id = `p1` when `p1` is non-empty, id = `p0` when `p1` is empty. -/
theorem fromString_parse_rule (s : QString) :
    (∀ p, split '@' s = [p] → fromString s = ⟨p, p⟩) ∧
    (∀ p0 p1, split '@' s = [p0, p1] →
      fromString s = ⟨p0, if p1 = [] then p0 else p1⟩) := by
  constructor
  · intro p h
    rw [fromString_of_split_one s p h, ofModuleAndId_self]
  · intro p0 p1 h
    rw [fromString_of_split_two s p0 p1 h]
    by_cases h1 : p1 = []
    · subst h1
      simp [ofModuleAndId_nil]
    · simp [h1, ofModuleAndId_of_ne_nil p0 p1 h1]

theorem fromString_parse_rule_witness :
    fromString "users".toList = ⟨"users".toList, "users".toList⟩ ∧
      fromString "users@one".toList = ⟨"users".toList, "one".toList⟩ ∧
      fromString "users@".toList = ⟨"users".toList, "users".toList⟩ :=
  ⟨(fromString_parse_rule "users".toList).1 "users".toList (by decide),
   (fromString_parse_rule "users@one".toList).2 "users".toList "one".toList (by decide),
   (fromString_parse_rule "users@".toList).2 "users".toList [] (by decide)⟩

/-- C3 (as stated, refuted): `"users@"` is not well-formed, yet it parses to the
valid key (users, users) and not to the sentinel; `"@id"` is not well-formed
either and parses to the key with empty module and id `"id"`, which is invalid
but is not the sentinel. -/
theorem fromString_malformed_counterexample :
    (¬ WellFormed "users@".toList ∧
      fromString "users@".toList = ⟨"users".toList, "users".toList⟩ ∧
      fromString "users@".toList ≠ invalid ∧
      (fromString "users@".toList).isValid = true) ∧
    (¬ WellFormed "@id".toList ∧
      fromString "@id".toList = ⟨[], "id".toList⟩ ∧
      fromString "@id".toList ≠ invalid) :=
  ⟨⟨mt (wellFormed_iff_parts _).mp (by decide), by decide, by decide, by decide⟩,
   ⟨mt (wellFormed_iff_parts _).mp (by decide), by decide, by decide⟩⟩

/-- C3 (amended): for a string `s` that is not well-formed, `"m@"` with non-empty
`m` free of `'@'` parses to the valid key (m, m); `"@i"` with non-empty `i` free
of `'@'` parses to the invalid key with empty module and id `i`; every other
`s` parses to the invalid sentinel (both parts empty), for which `isValid()` is
false. -/
theorem fromString_malformed (s : QString) (h : ¬ WellFormed s) :
    (∀ m, m ≠ [] → '@' ∉ m → s = m ++ ['@'] →
      fromString s = ⟨m, m⟩ ∧ (fromString s).isValid = true) ∧
    (∀ i, i ≠ [] → '@' ∉ i → s = '@' :: i →
      fromString s = ⟨[], i⟩ ∧ (fromString s).isValid = false) ∧
    ((¬ ∃ m, m ≠ [] ∧ '@' ∉ m ∧ s = m ++ ['@']) → (¬ ∃ i, i ≠ [] ∧ '@' ∉ i ∧ s = '@' :: i) →
      fromString s = invalid ∧ (fromString s).isValid = false) := by
  refine ⟨?_, ?_, ?_⟩
  · rintro m hm hma rfl
    have e : fromString (m ++ ['@']) = ⟨m, m⟩ := by
      rw [fromString_append_at m [] hma (by simp), ofModuleAndId_nil]
    rw [e]
    exact ⟨rfl, (isValid_mk m m).mpr ⟨hm, hm⟩⟩
  · rintro i hi hia rfl
    have e : fromString ('@' :: i) = ⟨[], i⟩ := by
      have := fromString_append_at [] i (by simp) hia
      simpa [ofModuleAndId_of_ne_nil [] i hi] using this
    rw [e]
    exact ⟨rfl, rfl⟩
  · intro hnm hni
    rcases at_cases s with h0 | ⟨a, b, rfl, ha, hb⟩ | h2
    · have hs : s = [] := by
        by_contra hne
        exact h (Or.inl ⟨hne, h0⟩)
      subst hs
      exact ⟨by decide, by decide⟩
    · have ha0 : a = [] := by
        by_contra hane
        by_cases hb0 : b = []
        · subst hb0
          exact hnm ⟨a, hane, ha, rfl⟩
        · exact h (Or.inr ⟨a, b, hane, hb0, ha, hb, rfl⟩)
      subst ha0
      have hb0 : b = [] := by
        by_contra hbne
        exact hni ⟨b, hbne, hb, rfl⟩
      subst hb0
      exact ⟨by decide, by decide⟩
    · rw [fromString_of_two_le_count s h2]
      exact ⟨rfl, rfl⟩

theorem fromString_malformed_witness :
    (¬ WellFormed "a@b@c".toList ∧
      fromString "a@b@c".toList = invalid ∧ (fromString "a@b@c".toList).isValid = false) ∧
    (¬ WellFormed "@".toList ∧
      fromString "@".toList = invalid ∧ (fromString "@".toList).isValid = false) ∧
    (¬ WellFormed "users@".toList ∧
      fromString "users@".toList = ⟨"users".toList, "users".toList⟩ ∧
      (fromString "users@".toList).isValid = true) ∧
    (¬ WellFormed "@id".toList ∧
      fromString "@id".toList = ⟨[], "id".toList⟩ ∧
      (fromString "@id".toList).isValid = false) :=
  have h3 : ¬ WellFormed "a@b@c".toList := mt (wellFormed_iff_parts _).mp (by decide)
  have h0 : ¬ WellFormed "@".toList := mt (wellFormed_iff_parts _).mp (by decide)
  have hu : ¬ WellFormed "users@".toList := mt (wellFormed_iff_parts _).mp (by decide)
  have hi : ¬ WellFormed "@id".toList := mt (wellFormed_iff_parts _).mp (by decide)
  ⟨⟨h3, (fromString_malformed "a@b@c".toList h3).2.2
      (by rintro ⟨m, -, hma, hs⟩
          have h1 := count_append_sep '@' m [] hma (by simp)
          rw [← hs] at h1
          exact absurd h1 (by decide))
      (by rintro ⟨i, -, hia, hs⟩
          have h1 := count_append_sep '@' [] i (by simp) hia
          rw [List.nil_append, ← hs] at h1
          exact absurd h1 (by decide))⟩,
   ⟨h0, (fromString_malformed "@".toList h0).2.2
      (by rintro ⟨m, hm, -, hs⟩
          cases m with
          | nil => exact hm rfl
          | cons c cs =>
            have hl := congrArg List.length hs
            simp at hl)
      (by rintro ⟨i, hne, -, hs⟩
          cases i with
          | nil => exact hne rfl
          | cons c cs =>
            have hl := congrArg List.length hs
            simp at hl)⟩,
   ⟨hu, (fromString_malformed "users@".toList hu).1 "users".toList
      (by decide) (by decide) (by decide)⟩,
   ⟨hi, (fromString_malformed "@id".toList hi).2.1 "id".toList
      (by decide) (by decide) (by decide)⟩⟩

/-- C9: for every string `s`, `fromString(s).isValid()` is true if and only if `s`
contains at most one `'@'` and the text before it (all of `s` when there is
none) is non-empty; `"users@"` parses to the valid key (users, users), while
`""`, `"@"`, `"@id"` and `"a@b@c"` parse to invalid keys. -/
theorem isValid_fromString_iff :
    (∀ s : QString, (fromString s).isValid = true ↔
      s.count '@' ≤ 1 ∧ s.takeWhile (fun c => c != '@') ≠ []) ∧
    fromString "users@".toList = ⟨"users".toList, "users".toList⟩ ∧
    (fromString "users@".toList).isValid = true ∧
    (fromString "".toList).isValid = false ∧
    (fromString "@".toList).isValid = false ∧
    (fromString "@id".toList).isValid = false ∧
    (fromString "a@b@c".toList).isValid = false := by
  refine ⟨fun s => ?_, by decide, by decide, by decide, by decide, by decide, by decide⟩
  rcases at_cases s with h0 | ⟨a, b, rfl, ha, hb⟩ | h2
  · rw [fromString_of_not_mem s h0, ofModuleAndId_self, isValid_mk,
      takeWhile_ne_of_not_mem '@' s h0, List.count_eq_zero.mpr h0]
    simp
  · rw [fromString_append_at a b ha hb, takeWhile_ne_append_sep '@' a b ha,
      count_append_sep '@' a b ha hb]
    by_cases hb0 : b = []
    · subst hb0
      rw [ofModuleAndId_nil, isValid_mk]
      simp
    · rw [ofModuleAndId_of_ne_nil a b hb0, isValid_mk]
      simp [hb0]
  · rw [fromString_of_two_le_count s h2]
    constructor
    · intro h
      exact absurd h (by decide)
    · rintro ⟨h1, -⟩
      omega

/-- Every key built by `ModuleInstanceKey( module, id )` from parts free of `'@'`
is parsed back from its string form. -/
theorem fromString_toQString_ofModuleAndId (m i : QString) (hm : '@' ∉ m) (hi : '@' ∉ i) :
    fromString (toQString (ofModuleAndId m i)) = ofModuleAndId m i := by
  by_cases hi0 : i = []
  · subst hi0
    rw [ofModuleAndId_nil]
    have e : toQString ⟨m, m⟩ = m ++ '@' :: m := by simp [toQString, module, ModuleInstanceKey.id]
    rw [e, fromString_append_at m m hm hm, ofModuleAndId_self]
  · rw [ofModuleAndId_of_ne_nil m i hi0]
    have e : toQString ⟨m, i⟩ = m ++ '@' :: i := by simp [toQString, module, ModuleInstanceKey.id]
    rw [e, fromString_append_at m i hm hi, ofModuleAndId_of_ne_nil m i hi0]

/-- C10: for every module `m` and id `i` free of `'@'` (empty strings allowed), the
key `k = ModuleInstanceKey(m, i)` satisfies `fromString(QString(k)) == k`; the
string form is injective on such keys; and parsing then printing is idempotent:
`fromString(QString(fromString(s))) == fromString(s)` for every string `s`. -/
theorem fromString_toQString_key_roundtrip :
    (∀ m i : QString, '@' ∉ m → '@' ∉ i →
      fromString (toQString (ofModuleAndId m i)) = ofModuleAndId m i) ∧
    (∀ m1 i1 m2 i2 : QString, '@' ∉ m1 → '@' ∉ i1 → '@' ∉ m2 → '@' ∉ i2 →
      toQString (ofModuleAndId m1 i1) = toQString (ofModuleAndId m2 i2) →
      ofModuleAndId m1 i1 = ofModuleAndId m2 i2) ∧
    (∀ s : QString, fromString (toQString (fromString s)) = fromString s) := by
  refine ⟨fromString_toQString_ofModuleAndId, ?_, ?_⟩
  · intro m1 i1 m2 i2 h1 h2 h3 h4 he
    rw [← fromString_toQString_ofModuleAndId m1 i1 h1 h2,
      ← fromString_toQString_ofModuleAndId m2 i2 h3 h4, he]
  · intro s
    rcases at_cases s with h0 | ⟨a, b, rfl, ha, hb⟩ | h2
    · rw [fromString_of_not_mem s h0]
      exact fromString_toQString_ofModuleAndId s s h0 h0
    · rw [fromString_append_at a b ha hb]
      exact fromString_toQString_ofModuleAndId a b ha hb
    · rw [fromString_of_two_le_count s h2]
      decide

theorem fromString_toQString_key_roundtrip_witness :
    fromString (toQString (ofModuleAndId "users".toList [])) = ofModuleAndId "users".toList [] ∧
      fromString (toQString (ofModuleAndId [] [])) = ofModuleAndId [] [] ∧
      fromString (toQString (fromString "a@b@c".toList)) = fromString "a@b@c".toList :=
  ⟨fromString_toQString_key_roundtrip.1 "users".toList [] (by decide) (by decide),
   fromString_toQString_key_roundtrip.1 [] [] (by decide) (by decide),
   fromString_toQString_key_roundtrip.2.2 "a@b@c".toList⟩

/-! ## Dependency checks of the module manager -/

open ModuleManager

theorem contains_eq_true_iff (D : QMap QString ModuleDescriptor) (r : QString) :
    QMap.contains D r = true ↔ ∃ d, (r, d) ∈ D := by
  simp only [QMap.contains, List.any_eq_true, decide_eq_true_eq]
  constructor
  · rintro ⟨⟨k, d⟩, hmem, rfl⟩
    exact ⟨d, hmem⟩
  · rintro ⟨d, hmem⟩
    exact ⟨(r, d), hmem, rfl⟩

theorem hasMissingRequirement_iff (D : QMap QString ModuleDescriptor) (d : ModuleDescriptor) :
    hasMissingRequirement D d = true ↔ ∃ r ∈ d.requiredModules, ∀ d', (r, d') ∉ D := by
  simp only [hasMissingRequirement, List.any_eq_true, Bool.not_eq_true', ← Bool.not_eq_true,
    contains_eq_true_iff, not_exists]

/-- The names reported by the pass over the entries `l`, judged against `snapshot`. -/
theorem foldl_checkDependenciesStep (snapshot l : QMap QString ModuleDescriptor)
    (acc : QStringList × ModuleManager) :
    l.foldl (checkDependenciesStep snapshot) acc =
      (acc.1 ++ (l.filter (fun e => hasMissingRequirement snapshot e.2)).map Prod.fst,
        { acc.2 with
          m_availableDescriptorsByModuleName :=
            acc.2.m_availableDescriptorsByModuleName.filter (fun e =>
              decide (e.1 ∉ (l.filter (fun e => hasMissingRequirement snapshot e.2)).map
                Prod.fst)) }) := by
  induction l generalizing acc with
  | nil => simp
  | cons e l ih =>
    rw [List.foldl_cons, ih]
    by_cases hbad : hasMissingRequirement snapshot e.2 = true
    · simp only [checkDependenciesStep, hbad, if_true, List.filter_cons_of_pos, List.map_cons,
        QMap.remove, List.filter_filter, List.append_assoc, List.singleton_append]
      congr 2
      apply List.filter_congr
      intro x _
      simp only [List.mem_cons, not_or, Bool.decide_and, Bool.and_comm]
    · have hb : hasMissingRequirement snapshot e.2 = false := by simpa using hbad
      have hf : (e :: l).filter (fun e => hasMissingRequirement snapshot e.2) =
          l.filter (fun e => hasMissingRequirement snapshot e.2) :=
        List.filter_cons_of_neg (by simp [hb])
      rw [hf]
      simp only [checkDependenciesStep, hb, Bool.false_eq_true, if_false]

theorem checkDependencies_eq (mgr : ModuleManager) :
    checkDependencies mgr =
      ((mgr.m_availableDescriptorsByModuleName.filter
          (fun e => hasMissingRequirement mgr.m_availableDescriptorsByModuleName e.2)).map Prod.fst,
        { mgr with
          m_availableDescriptorsByModuleName :=
            mgr.m_availableDescriptorsByModuleName.filter (fun e =>
              decide (e.1 ∉ (mgr.m_availableDescriptorsByModuleName.filter (fun e =>
                hasMissingRequirement mgr.m_availableDescriptorsByModuleName e.2)).map
                  Prod.fst)) }) := by
  unfold checkDependencies
  simp only [foldl_checkDependenciesStep, List.nil_append]

theorem mem_failed_iff (D : QMap QString ModuleDescriptor) (n : QString) :
    n ∈ (D.filter (fun e => hasMissingRequirement D e.2)).map Prod.fst ↔
      ∃ d, (n, d) ∈ D ∧ ∃ r ∈ d.requiredModules, ∀ d', (r, d') ∉ D := by
  simp only [List.mem_map, List.mem_filter, hasMissingRequirement_iff]
  constructor
  · rintro ⟨⟨k, d⟩, ⟨hmem, hmiss⟩, rfl⟩
    exact ⟨d, hmem, hmiss⟩
  · rintro ⟨d, hmem, hmiss⟩
    exact ⟨(n, d), ⟨hmem, hmiss⟩, rfl⟩

/-- C7: for every manager with available-descriptor map `D`, `checkDependencies()`
returns exactly the names of the descriptors of `D` with at least one entry of
`requiredModules` that is not a key of `D` (as `D` was before the call); the
available map afterwards is `D` without the entries under those names, every
other entry and every other member unchanged; the returned list is empty iff
nothing was removed. `{A: [], B: [A]}` returns `[]` and keeps both;
`{A: [X]}` returns `["A"]` and `A` is no longer available. -/
theorem checkDependencies_global_filter :
    (∀ mgr : ModuleManager,
      (∀ n, n ∈ (checkDependencies mgr).1 ↔
        ∃ d, (n, d) ∈ mgr.m_availableDescriptorsByModuleName ∧
          ∃ r ∈ d.requiredModules, ∀ d', (r, d') ∉ mgr.m_availableDescriptorsByModuleName) ∧
      (checkDependencies mgr).2.m_availableDescriptorsByModuleName =
        mgr.m_availableDescriptorsByModuleName.filter
          (fun e => decide (e.1 ∉ (checkDependencies mgr).1)) ∧
      (∀ e, e ∈ (checkDependencies mgr).2.m_availableDescriptorsByModuleName ↔
        e ∈ mgr.m_availableDescriptorsByModuleName ∧ e.1 ∉ (checkDependencies mgr).1) ∧
      (checkDependencies mgr).2.m_moduleDirectoriesByModuleName =
        mgr.m_moduleDirectoriesByModuleName ∧
      (checkDependencies mgr).2.m_loadedModulesByInstanceKey =
        mgr.m_loadedModulesByInstanceKey ∧
      (checkDependencies mgr).2.m_paths = mgr.m_paths ∧
      ((checkDependencies mgr).1 = [] ↔
        (checkDependencies mgr).2.m_availableDescriptorsByModuleName =
          mgr.m_availableDescriptorsByModuleName)) ∧
    checkDependencies
        ⟨[("A".toList, ⟨"A".toList, []⟩), ("B".toList, ⟨"B".toList, ["A".toList]⟩)], [], [], []⟩ =
      ([], ⟨[("A".toList, ⟨"A".toList, []⟩), ("B".toList, ⟨"B".toList, ["A".toList]⟩)],
        [], [], []⟩) ∧
    checkDependencies ⟨[("A".toList, ⟨"A".toList, ["X".toList]⟩)], [], [], []⟩ =
      (["A".toList], ⟨[], [], [], []⟩) := by
  refine ⟨fun mgr => ?_, by decide, by decide⟩
  have hfilter : (checkDependencies mgr).2.m_availableDescriptorsByModuleName =
      mgr.m_availableDescriptorsByModuleName.filter
        (fun e => decide (e.1 ∉ (checkDependencies mgr).1)) := by
    rw [checkDependencies_eq]
  have hmem : ∀ n, n ∈ (checkDependencies mgr).1 ↔
      ∃ d, (n, d) ∈ mgr.m_availableDescriptorsByModuleName ∧
        ∃ r ∈ d.requiredModules, ∀ d', (r, d') ∉ mgr.m_availableDescriptorsByModuleName := by
    intro n
    rw [checkDependencies_eq]
    exact mem_failed_iff _ n
  refine ⟨hmem, hfilter, ?_, ?_, ?_, ?_, ?_⟩
  · intro e
    rw [hfilter]
    simp [List.mem_filter]
  · rw [checkDependencies_eq]
  · rw [checkDependencies_eq]
  · rw [checkDependencies_eq]
  · constructor
    · intro h
      rw [hfilter, h]
      simp
    · intro h
      rw [List.eq_nil_iff_forall_not_mem]
      intro n hn
      obtain ⟨d, hd, -⟩ := (hmem n).mp hn
      rw [hfilter] at h
      have hall := List.filter_eq_self.mp h (n, d) hd
      simp at hall
      exact hall hn

/-- C8: for every module `M` and loaded-module map `L`, `checkDependencies(M)` is
true if and only if every name in `M`'s `requiredModules` is `module()` of some
instance key of `L`; it is true when `M` requires nothing, and false when a
required module is absent from `L` (`B` requires `A` with `L` empty gives false). -/
theorem checkDependenciesOf_iff :
    (∀ (mgr : ModuleManager) (M : Module),
      checkDependenciesOf mgr M = true ↔
        ∀ r ∈ M.requiredModules, ∃ e ∈ mgr.m_loadedModulesByInstanceKey, e.1.module = r) ∧
    (∀ (mgr : ModuleManager) (M : Module),
      M.requiredModules = [] → checkDependenciesOf mgr M = true) ∧
    (∀ (mgr : ModuleManager) (M : Module) (r : QString),
      r ∈ M.requiredModules → (∀ e ∈ mgr.m_loadedModulesByInstanceKey, e.1.module ≠ r) →
        checkDependenciesOf mgr M = false) ∧
    checkDependenciesOf ⟨[], [], [], []⟩ ⟨"B".toList, ["A".toList]⟩ = false ∧
    checkDependenciesOf ⟨[], [], [(ofModule "A".toList, ⟨"A".toList, []⟩)], []⟩
      ⟨"B".toList, ["A".toList]⟩ = true := by
  have hiff : ∀ (mgr : ModuleManager) (M : Module),
      checkDependenciesOf mgr M = true ↔
        ∀ r ∈ M.requiredModules, ∃ e ∈ mgr.m_loadedModulesByInstanceKey, e.1.module = r := by
    intro mgr M
    simp [checkDependenciesOf, List.all_eq_true, List.any_eq_true]
  refine ⟨hiff, ?_, ?_, by decide, by decide⟩
  · intro mgr M h
    rw [hiff, h]
    simp
  · intro mgr M r hr hne
    rw [← Bool.not_eq_true, hiff]
    intro hall
    obtain ⟨e, he, heq⟩ := hall r hr
    exact hne e he heq

end Calamares
